import Mathlib

/-!
Shallow embedding of the cppreg MMIO register library (single-header
`cppreg-all.h`) and verification of its specification claims.

Machine integers of the register representation type `T` (one of
uint8/16/32/64, selected by `RegBitSize`) are modelled as `Nat` together
with the bit count `N` of the representation; every C++ conversion
`static_cast<T>(e)` that can truncate is modelled by `% 2 ^ N`, and the
C++ bitwise complement `~mask` of a `T`-value is modelled as
`type_mask N ^^^ mask` (identical on values below `2 ^ N`).

Hardware MMIO locations are modelled by `MmioDevice`: the current register
value together with a counter of the stores performed on it, so that
"performs exactly one store" properties are expressible.  The shadow value
of a shadow-enabled register is plain memory (a `Nat`), as in the source.
-/

namespace Cppreg

/-- Defines.h: `type_mask<T>::value = std::numeric_limits<T>::max()`, the
all-ones value of an `N`-bit representation. -/
def type_mask (N : Nat) : Nat := 2 ^ N - 1

/-- Internals.h: `check_overflow<T, value, limit> : value <= limit`. -/
def check_overflow (value limit : Nat) : Bool := value ≤ limit

/-- AccessPolicy.h: `is_trivial_rw<T, mask, offset>`: the access is trivial
when the mask covers the whole representation and the offset is zero. -/
def is_trivial_rw (N mask offset : Nat) : Bool :=
  (mask == type_mask N) && (offset == 0)

/-- Model of one MMIO register location: its current `N`-bit value together
with the number of stores performed on it so far. -/
structure MmioDevice where
  val : Nat
  stores : Nat
deriving DecidableEq

/-- One hardware store (`mmio_device = x` in the source): the value is
replaced and the store counter goes up by one. -/
def mmio_store (d : MmioDevice) (x : Nat) : MmioDevice :=
  { val := x, stores := d.stores + 1 }

/-- AccessPolicy.h `RegisterRead::read`, non-trivial overload:
`(mmio_device & mask) >> offset`. -/
def RegisterRead_read_nontrivial (mask offset mmio_device : Nat) : Nat :=
  (mmio_device &&& mask) >>> offset

/-- AccessPolicy.h `RegisterRead::read`, trivial overload: return the raw
register value. -/
def RegisterRead_read_trivial (mmio_device : Nat) : Nat :=
  mmio_device

/-- AccessPolicy.h `RegisterRead::read` with its SFINAE dispatch on
`is_trivial_rw`. -/
def RegisterRead_read (N mask offset mmio_device : Nat) : Nat :=
  if is_trivial_rw N mask offset then RegisterRead_read_trivial mmio_device
  else RegisterRead_read_nontrivial mask offset mmio_device

/-- AccessPolicy.h `RegisterWrite::write`, non-trivial overload, as the new
register value: `(mmio_device & ~mask) | ((value << offset) & mask)` in
`N`-bit arithmetic. -/
def RegisterWrite_write_nontrivial (N mask offset mmio_device value : Nat) : Nat :=
  (mmio_device &&& (type_mask N ^^^ mask)) |||
    (((value <<< offset) % 2 ^ N) &&& mask)

/-- AccessPolicy.h `RegisterWrite::write`, trivial overload: the stored
value is `value` itself. -/
def RegisterWrite_write_trivial (value : Nat) : Nat :=
  value

/-- AccessPolicy.h `RegisterWrite::write` with its SFINAE dispatch, as the
new register value. -/
def RegisterWrite_write (N mask offset mmio_device value : Nat) : Nat :=
  if is_trivial_rw N mask offset then RegisterWrite_write_trivial value
  else RegisterWrite_write_nontrivial N mask offset mmio_device value

/-- AccessPolicy.h `RegisterWrite::write` acting on an MMIO device: one
store of the new register value. -/
def RegisterWrite_store (N mask offset : Nat) (d : MmioDevice) (value : Nat) :
    MmioDevice :=
  mmio_store d (RegisterWrite_write N mask offset d.val value)

/-- AccessPolicy.h `RegisterWriteConstant::write` (same formulas as
`RegisterWrite::write`, with the value a compile-time constant), as the new
register value. -/
def RegisterWriteConstant_write (N mask offset mmio_device value : Nat) : Nat :=
  if is_trivial_rw N mask offset then value
  else
    (mmio_device &&& (type_mask N ^^^ mask)) |||
      (((value <<< offset) % 2 ^ N) &&& mask)

/-- AccessPolicy.h `RegisterWriteConstant::write` acting on an MMIO device:
one store of the new register value. -/
def RegisterWriteConstant_store (N mask offset : Nat) (d : MmioDevice)
    (value : Nat) : MmioDevice :=
  mmio_store d (RegisterWriteConstant_write N mask offset d.val value)

/-- Mask.h `make_mask<Mask>(width)`: recursively shift in low one-bits; the
`static_cast<Mask>` on the shifted value is the `% 2 ^ N`. -/
def make_mask (N : Nat) : Nat → Nat
  | 0 => 0
  | w + 1 => ((make_mask N w <<< 1) % 2 ^ N) ||| 1

/-- Mask.h `make_shifted_mask<Mask>(width, offset)`:
`static_cast<Mask>(make_mask(width) << offset)`. -/
def make_shifted_mask (N width offset : Nat) : Nat :=
  (make_mask N width <<< offset) % 2 ^ N

/-- Field.h: a field's mask, `make_shifted_mask<type>(width, offset)`. -/
def Field_mask (N width offset : Nat) : Nat :=
  make_shifted_mask N width offset

/-- Access policies that provide a `write` member (`read_only` has none). -/
inductive AccessPolicyKind where
  | read_write
  | write_only
deriving DecidableEq

/-- AccessPolicy.h policy `write<MMIO, T, mask, offset>(mmio_device, value)`:
`read_write` delegates to `RegisterWrite`; `write_only` always writes the
entire register, storing `(value << offset) & mask` with a full-width mask
and zero offset. -/
def policy_write (p : AccessPolicyKind) (N mask offset : Nat) (d : MmioDevice)
    (value : Nat) : MmioDevice :=
  match p with
  | .read_write => RegisterWrite_store N mask offset d value
  | .write_only =>
      RegisterWrite_store N (type_mask N) 0 d ((value <<< offset) &&& mask)

/-- Field.h `Field::read()`: `policy::read<MMIO, type, mask, offset>` on the
register's memory (both `read_only` and `read_write` use `RegisterRead`). -/
def Field_read (N width offset mmio_device : Nat) : Nat :=
  RegisterRead_read N (Field_mask N width offset) offset mmio_device

/-- Field.h `Field::write(value)` for a non-shadow register with the
`read_write` policy. -/
def Field_write (N width offset : Nat) (d : MmioDevice) (value : Nat) :
    MmioDevice :=
  policy_write .read_write N (Field_mask N width offset) offset d value

/-- Field.h `Field::write(value)` for a non-shadow register with the
`write_only` policy. -/
def Field_write_wo (N width offset : Nat) (d : MmioDevice) (value : Nat) :
    MmioDevice :=
  policy_write .write_only N (Field_mask N width offset) offset d value

/-- Field.h `Field::write<value>()` (compile-time constant value) for a
non-shadow register with the `read_write` policy: delegates to
`RegisterWriteConstant`. -/
def Field_write_constant (N width offset : Nat) (d : MmioDevice)
    (value : Nat) : MmioDevice :=
  RegisterWriteConstant_store N (Field_mask N width offset) offset d value

/-- Field.h `Field::is_set()`: `read() == (mask >> offset)`. -/
def Field_is_set (N width offset mmio_device : Nat) : Bool :=
  Field_read N width offset mmio_device == (Field_mask N width offset >>> offset)

/-- Field.h `Field::is_clear()`: `read() == 0`. -/
def Field_is_clear (N width offset mmio_device : Nat) : Bool :=
  Field_read N width offset mmio_device == 0

/-- State of a shadow-enabled register: the process-wide shadow value
(plain memory) and the hardware MMIO location. -/
structure ShadowRegState where
  shadow_value : Nat
  dev : MmioDevice
deriving DecidableEq

/-- Field.h `Field::write(value)` for a shadow register: first
`RegisterWrite<type, type, mask, offset>::write(shadow_value, value)`
updates the shadow value, then
`policy::write<MMIO, type, type_mask, 0>(rw_mem_device(), shadow_value)`
pushes the whole updated shadow value to hardware. -/
def Field_write_shadow (p : AccessPolicyKind) (N width offset : Nat)
    (s : ShadowRegState) (value : Nat) : ShadowRegState :=
  let sh := RegisterWrite_write N (Field_mask N width offset) offset
    s.shadow_value value
  { shadow_value := sh,
    dev := policy_write p N (type_mask N) 0 s.dev sh }

/-- A sequence of shadow-register field writes, each given as
(width, offset, value), applied in order. -/
def Field_write_shadow_seq (p : AccessPolicyKind) (N : Nat)
    (s : ShadowRegState) (ws : List (Nat × Nat × Nat)) : ShadowRegState :=
  ws.foldl (fun st wov => Field_write_shadow p N wov.1 wov.2.1 st wov.2.2) s

/-- The masked update a single field write performs on a value:
`(x & ~mask) | ((value << offset) & mask)` in `N`-bit arithmetic. -/
def masked_update (N width offset x value : Nat) : Nat :=
  (x &&& (type_mask N ^^^ Field_mask N width offset)) |||
    (((value <<< offset) % 2 ^ N) &&& Field_mask N width offset)

/-- MergeWrite.h runtime accumulator `MergeWrite<Register, mask>`: the
runtime accumulated value and the (type-level, modelled as data) combined
mask. -/
structure MergeWrite where
  accumulated_value : Nat
  combined_mask : Nat
deriving DecidableEq

/-- Register.h `Register::merge_write<F>(value)`: seeds the accumulator
with `static_cast<type>(static_cast<type>(value << F::offset) & F::mask)`
and combined mask `F::mask`. -/
def Register_merge_write (N width offset value : Nat) : MergeWrite :=
  { accumulated_value := ((value <<< offset) % 2 ^ N) &&& Field_mask N width offset,
    combined_mask := Field_mask N width offset }

/-- MergeWrite.h `MergeWrite::with<F>(value)`:
`accumulated_value := (accumulated_value & ~F::mask) | ((value << F::offset) & F::mask)`,
`combined_mask := combined_mask | F::mask`. -/
def MergeWrite_with (N width offset : Nat) (m : MergeWrite) (value : Nat) :
    MergeWrite :=
  { accumulated_value :=
      (m.accumulated_value &&& (type_mask N ^^^ Field_mask N width offset)) |||
        (((value <<< offset) % 2 ^ N) &&& Field_mask N width offset),
    combined_mask := m.combined_mask ||| Field_mask N width offset }

/-- MergeWrite.h `MergeWrite::done()`: one
`RegisterWrite<MMIO, type, combined_mask, 0>::write(mmio_device, accumulated_value)`. -/
def MergeWrite_done (N : Nat) (m : MergeWrite) (d : MmioDevice) : MmioDevice :=
  RegisterWrite_store N m.combined_mask 0 d m.accumulated_value

/-- MergeWrite.h compile-time accumulator
`MergeWrite_tmpl<Register, mask, offset, value>`: its three non-register
template parameters, modelled as data. -/
structure MergeWriteTmpl where
  mask : Nat
  offset : Nat
  value : Nat
deriving DecidableEq

/-- MergeWrite.h `MergeWrite_tmpl::_accumulated_value = (value << offset) & mask`. -/
def MergeWriteTmpl_accumulated_value (N : Nat) (m : MergeWriteTmpl) : Nat :=
  ((m.value <<< m.offset) % 2 ^ N) &&& m.mask

/-- MergeWrite.h `MergeWrite_tmpl::_combined_mask = mask`. -/
def MergeWriteTmpl_combined_mask (m : MergeWriteTmpl) : Nat :=
  m.mask

/-- Register.h `Register::merge_write<F, value>()`: the accumulator type is
`MergeWrite_tmpl<parent, F::mask, F::offset, value>`. -/
def Register_merge_write_tmpl (N width offset value : Nat) : MergeWriteTmpl :=
  { mask := Field_mask N width offset, offset := offset, value := value }

/-- MergeWrite.h `MergeWrite_tmpl::with<F, new_value>()`, the `propagated`
type: mask `_combined_mask | F::mask`, offset `0`, value
`(_accumulated_value & ~F::mask) | ((new_value << F::offset) & F::mask)`. -/
def MergeWriteTmpl_with (N width offset : Nat) (m : MergeWriteTmpl)
    (new_value : Nat) : MergeWriteTmpl :=
  { mask := MergeWriteTmpl_combined_mask m ||| Field_mask N width offset,
    offset := 0,
    value :=
      (MergeWriteTmpl_accumulated_value N m &&&
          (type_mask N ^^^ Field_mask N width offset)) |||
        (((new_value <<< offset) % 2 ^ N) &&& Field_mask N width offset) }

/-- MergeWrite.h `MergeWrite_tmpl::done()`: one
`RegisterWriteConstant<MMIO, type, _combined_mask, 0, _accumulated_value>::write`. -/
def MergeWriteTmpl_done (N : Nat) (m : MergeWriteTmpl) (d : MmioDevice) :
    MmioDevice :=
  RegisterWriteConstant_store N (MergeWriteTmpl_combined_mask m) 0 d
    (MergeWriteTmpl_accumulated_value N m)

/-- RegisterPack.h `for_loop<start, end>::apply<Func>`: the list of indices
at which `Func` is invoked, in invocation order.  The primary template
invokes `Func` at `start` and recurses on `start + 1` when `start < end`;
the `for_loop<end, end>` specialization invokes nothing. -/
def for_loop_indices (s e : Nat) : List Nat :=
  if s = e then []
  else
    s :: (if h2 : s < e then for_loop_indices (s + 1) e else [])
termination_by e - s
decreasing_by omega

/-- RegisterPack.h `pack_loop<IndexedPack> : for_loop<0, n_elems>`. -/
def pack_loop_indices (n_elems : Nat) : List Nat :=
  for_loop_indices 0 n_elems

/-- Invariant of a runtime merge-write accumulator: the accumulated value
has no one-bit outside the combined mask. -/
def merge_inv (N : Nat) (m : MergeWrite) : Prop :=
  m.accumulated_value &&& (type_mask N ^^^ m.combined_mask) = 0

theorem testBit_one (i : Nat) : (1 : Nat).testBit i = decide (i = 0) := by
  rcases i with _ | j
  · rfl
  · simp [Nat.testBit_succ]

theorem make_mask_eq {N w : Nat} (h : w ≤ N) : make_mask N w = 2 ^ w - 1 := by
  induction w with
  | zero => rfl
  | succ w ih =>
    have hw : w ≤ N := Nat.le_of_succ_le h
    have hpos : 0 < 2 ^ w := Nat.pos_pow_of_pos _ (by norm_num)
    have hlt : (2 ^ w - 1) <<< 1 < 2 ^ N := by
      rw [Nat.shiftLeft_eq, pow_one]
      have h1 : 2 ^ (w + 1) ≤ 2 ^ N := Nat.pow_le_pow_right (by norm_num) h
      have h2 : 2 ^ (w + 1) = 2 ^ w * 2 := pow_succ 2 w
      omega
    rw [make_mask, ih hw, Nat.mod_eq_of_lt hlt]
    apply Nat.eq_of_testBit_eq
    intro i
    simp only [Nat.testBit_or, Nat.testBit_shiftLeft, Nat.testBit_two_pow_sub_one,
      testBit_one, ge_iff_le]
    rcases i with _ | j
    · simp
    · by_cases hj : j < w <;> simp [hj, Nat.succ_lt_succ_iff]

theorem Field_mask_eq {N w o : Nat} (h : w + o ≤ N) :
    Field_mask N w o = (2 ^ w - 1) <<< o := by
  have hlt : (2 ^ w - 1) <<< o < 2 ^ N := by
    rw [Nat.shiftLeft_eq]
    have h1 : 2 ^ (w + o) ≤ 2 ^ N := Nat.pow_le_pow_right (by norm_num) h
    have h2 : 2 ^ (w + o) = 2 ^ w * 2 ^ o := pow_add 2 w o
    have hpos : 0 < 2 ^ o := Nat.pos_pow_of_pos _ (by norm_num)
    have h3 : (2 ^ w - 1) * 2 ^ o < 2 ^ w * 2 ^ o := by
      have : 0 < 2 ^ w := Nat.pos_pow_of_pos _ (by norm_num)
      exact Nat.mul_lt_mul_of_lt_of_le (by omega) (Nat.le_refl _) hpos
    omega
  rw [Field_mask, make_shifted_mask, make_mask_eq (by omega), Nat.mod_eq_of_lt hlt]

theorem testBit_Field_mask {N w o : Nat} (h : w + o ≤ N) (i : Nat) :
    (Field_mask N w o).testBit i = (decide (o ≤ i) && decide (i < o + w)) := by
  rw [Field_mask_eq h]
  simp only [Nat.testBit_shiftLeft, Nat.testBit_two_pow_sub_one, ge_iff_le]
  by_cases h1 : o ≤ i <;> by_cases h2 : i < o + w <;>
    simp [h1, h2] <;> omega

theorem Field_mask_lt (N w o : Nat) : Field_mask N w o < 2 ^ N := by
  rw [Field_mask, make_shifted_mask]
  exact Nat.mod_lt _ (Nat.pos_pow_of_pos _ (by norm_num))

theorem testBit_type_mask (N i : Nat) :
    (type_mask N).testBit i = decide (i < N) := by
  rw [type_mask]
  exact Nat.testBit_two_pow_sub_one N i

theorem type_mask_lt (N : Nat) : type_mask N < 2 ^ N := by
  have : 0 < 2 ^ N := Nat.pos_pow_of_pos _ (by norm_num)
  rw [type_mask]; omega

theorem is_trivial_rw_iff {N mask offset : Nat} :
    is_trivial_rw N mask offset = true ↔ mask = type_mask N ∧ offset = 0 := by
  simp [is_trivial_rw]

theorem and_type_mask_of_lt {N x : Nat} (h : x < 2 ^ N) :
    x &&& type_mask N = x := by
  apply Nat.eq_of_testBit_eq
  intro i
  simp only [Nat.testBit_and, testBit_type_mask]
  by_cases hi : i < N
  · simp [hi]
  · have : x < 2 ^ i := lt_of_lt_of_le h (Nat.pow_le_pow_right (by norm_num) (by omega))
    simp [hi, Nat.testBit_lt_two_pow this]

theorem RegisterWrite_write_eq {N mask offset mmio value : Nat}
    (hv : value < 2 ^ N) :
    RegisterWrite_write N mask offset mmio value =
      RegisterWrite_write_nontrivial N mask offset mmio value := by
  rw [RegisterWrite_write]
  split
  · next ht =>
    obtain ⟨hm, ho⟩ := is_trivial_rw_iff.mp ht
    subst hm ho
    rw [RegisterWrite_write_trivial, RegisterWrite_write_nontrivial]
    rw [Nat.xor_self, Nat.and_zero, Nat.zero_or, Nat.shiftLeft_zero,
      Nat.mod_eq_of_lt hv, and_type_mask_of_lt hv]
  · rfl

theorem RegisterWriteConstant_write_eq {N mask offset mmio value : Nat}
    (hv : value < 2 ^ N) :
    RegisterWriteConstant_write N mask offset mmio value =
      RegisterWrite_write_nontrivial N mask offset mmio value := by
  rw [RegisterWriteConstant_write]
  split
  · next ht =>
    obtain ⟨hm, ho⟩ := is_trivial_rw_iff.mp ht
    subst hm ho
    rw [RegisterWrite_write_nontrivial]
    rw [Nat.xor_self, Nat.and_zero, Nat.zero_or, Nat.shiftLeft_zero,
      Nat.mod_eq_of_lt hv, and_type_mask_of_lt hv]
  · rfl

theorem RegisterRead_read_eq {N mask offset mmio : Nat} (h : mmio < 2 ^ N) :
    RegisterRead_read N mask offset mmio =
      RegisterRead_read_nontrivial mask offset mmio := by
  rw [RegisterRead_read]
  split
  · next ht =>
    obtain ⟨hm, ho⟩ := is_trivial_rw_iff.mp ht
    subst hm ho
    rw [RegisterRead_read_trivial, RegisterRead_read_nontrivial,
      and_type_mask_of_lt h, Nat.shiftRight_zero]
  · rfl

theorem RegisterWrite_write_lt {N mask offset mmio value : Nat}
    (hm : mask < 2 ^ N) (hv : value < 2 ^ N) :
    RegisterWrite_write N mask offset mmio value < 2 ^ N := by
  rw [RegisterWrite_write_eq hv, RegisterWrite_write_nontrivial]
  apply Nat.or_lt_two_pow
  · exact lt_of_le_of_lt Nat.and_le_right (Nat.xor_lt_two_pow (type_mask_lt N) hm)
  · exact lt_of_le_of_lt Nat.and_le_right hm

theorem field_roundtrip_core {N w o v reg : Nat} (h : w + o ≤ N)
    (hv : v < 2 ^ w) :
    RegisterRead_read_nontrivial (Field_mask N w o) o
      (RegisterWrite_write_nontrivial N (Field_mask N w o) o reg v) = v := by
  apply Nat.eq_of_testBit_eq
  intro i
  simp only [RegisterRead_read_nontrivial, RegisterWrite_write_nontrivial,
    Nat.testBit_shiftRight, Nat.testBit_and, Nat.testBit_or, Nat.testBit_xor,
    Nat.testBit_mod_two_pow, Nat.testBit_shiftLeft, testBit_Field_mask h,
    testBit_type_mask, ge_iff_le]
  by_cases hi : i < w
  · have h1 : o ≤ o + i := Nat.le_add_right o i
    have h2 : o + i < o + w := by omega
    have h3 : o + i < N := by omega
    simp [h1, h2, h3, Nat.add_sub_cancel_left]
  · have h2 : ¬ (o + i < o + w) := by omega
    have h4 : v < 2 ^ i :=
      lt_of_lt_of_le hv (Nat.pow_le_pow_right (by norm_num) (by omega))
    simp [h2, Nat.testBit_lt_two_pow h4]

theorem RegisterWrite_write_testBit_outside {N mask offset reg v i : Nat}
    (hreg : reg < 2 ^ N) (hv : v < 2 ^ N) (hi : mask.testBit i = false) :
    (RegisterWrite_write N mask offset reg v).testBit i = reg.testBit i := by
  rw [RegisterWrite_write_eq hv, RegisterWrite_write_nontrivial]
  simp only [Nat.testBit_or, Nat.testBit_and, Nat.testBit_xor,
    Nat.testBit_mod_two_pow, testBit_type_mask, hi]
  by_cases hN : i < N
  · simp [hN]
  · have : reg < 2 ^ i :=
      lt_of_lt_of_le hreg (Nat.pow_le_pow_right (by norm_num) (by omega))
    simp [hN, Nat.testBit_lt_two_pow this]

theorem testBit_false_of_ge {x N i : Nat} (hx : x < 2 ^ N) (hi : N ≤ i) :
    x.testBit i = false :=
  Nat.testBit_lt_two_pow
    (lt_of_lt_of_le hx (Nat.pow_le_pow_right (by norm_num) hi))

theorem Field_mask_shiftRight {N w o : Nat} (h : w + o ≤ N) :
    Field_mask N w o >>> o = 2 ^ w - 1 := by
  rw [Field_mask_eq h, Nat.shiftLeft_eq, Nat.shiftRight_eq_div_pow]
  exact Nat.mul_div_cancel _ (Nat.pos_pow_of_pos _ (by norm_num))

theorem and_not_self_mask (N : Nat) {mask : Nat} (hm : mask < 2 ^ N)
    (x : Nat) : (x &&& mask) &&& (type_mask N ^^^ mask) = 0 := by
  apply Nat.eq_of_testBit_eq
  intro i
  simp only [Nat.testBit_and, Nat.testBit_xor, testBit_type_mask,
    Nat.zero_testBit]
  by_cases hN : i < N
  · cases hb : mask.testBit i <;> simp [hN, hb]
  · have hmb : mask.testBit i = false := testBit_false_of_ge hm (by omega)
    simp [hmb]

/-- Invariant of a compile-time merge-write accumulator: the accumulated
value has no one-bit outside the combined mask. -/
def merge_tmpl_inv (N : Nat) (m : MergeWriteTmpl) : Prop :=
  MergeWriteTmpl_accumulated_value N m &&&
    (type_mask N ^^^ MergeWriteTmpl_combined_mask m) = 0

/-- Claim C5: for every unsigned representation of bit count `N` and every width
`w ≤ N`, `make_mask(w) = 2 ^ w - 1` (exactly the `w` low bits set, `w = 0`
giving `0` and `w = N` the all-ones value), and for every `w + o ≤ N`,
`make_shifted_mask(w, o) = make_mask(w) <<< o`. -/
theorem claim_C5_make_mask (N : Nat) :
    (∀ w, w ≤ N → make_mask N w = 2 ^ w - 1) ∧
    (∀ w o, w + o ≤ N → make_shifted_mask N w o = make_mask N w <<< o) := by
  refine ⟨fun w hw => make_mask_eq hw, fun w o h => ?_⟩
  have hfm := Field_mask_eq h
  rw [Field_mask] at hfm
  rw [hfm, make_mask_eq (show w ≤ N by omega)]

/-- Witness for C5 at the 8-bit representation: the full-width mask is 255
and a shifted mask is the plain mask shifted. -/
theorem claim_C5_make_mask_witness :
    make_mask 8 8 = 2 ^ 8 - 1 ∧
    make_shifted_mask 8 4 4 = make_mask 8 4 <<< 4 :=
  ⟨(claim_C5_make_mask 8).1 8 (by decide), (claim_C5_make_mask 8).2 4 4 (by decide)⟩

/-- Claim C8: for a field whose mask is the full representation mask and whose
offset is 0, the trivial read path and the trivial write path produce
results bit-identical to the general masked path, for every register
content and every written value of the representation. -/
theorem claim_C8_trivial_path_equiv (N raw value : Nat) (hraw : raw < 2 ^ N)
    (hv : value < 2 ^ N) :
    RegisterRead_read_trivial raw =
      RegisterRead_read_nontrivial (type_mask N) 0 raw ∧
    RegisterWrite_write_trivial value =
      RegisterWrite_write_nontrivial N (type_mask N) 0 raw value := by
  constructor
  · rw [RegisterRead_read_trivial, RegisterRead_read_nontrivial,
      and_type_mask_of_lt hraw, Nat.shiftRight_zero]
  · rw [RegisterWrite_write_trivial, RegisterWrite_write_nontrivial,
      Nat.xor_self, Nat.and_zero, Nat.zero_or, Nat.shiftLeft_zero,
      Nat.mod_eq_of_lt hv, and_type_mask_of_lt hv]

/-- Witness for C8 on the 8-bit representation at register content 0xAB and
written value 0x5C. -/
theorem claim_C8_trivial_path_equiv_witness :
    RegisterRead_read_trivial 0xAB =
      RegisterRead_read_nontrivial (type_mask 8) 0 0xAB ∧
    RegisterWrite_write_trivial 0x5C =
      RegisterWrite_write_nontrivial 8 (type_mask 8) 0 0xAB 0x5C :=
  claim_C8_trivial_path_equiv 8 0xAB 0x5C (by decide) (by decide)

/-- Claim C7: for a field of width `w` at offset `o` of an `N`-bit register,
`is_set()` is true iff the field reads exactly `2 ^ w - 1`, and
`is_clear()` is true iff the field reads exactly 0. -/
theorem claim_C7_is_set_is_clear (N w o mmio : Nat) (h : w + o ≤ N) :
    (Field_is_set N w o mmio = true ↔ Field_read N w o mmio = 2 ^ w - 1) ∧
    (Field_is_clear N w o mmio = true ↔ Field_read N w o mmio = 0) := by
  constructor
  · rw [Field_is_set, Field_mask_shiftRight h]
    exact beq_iff_eq
  · rw [Field_is_clear]
    exact beq_iff_eq

/-- Witness for C7: a 3-bit field at offset 1 of an 8-bit register holding
6 is not set (6 is not 7), holding 7 is set, and holding 0 is clear. -/
theorem claim_C7_is_set_is_clear_witness :
    Field_is_set 8 3 1 (6 <<< 1) = false ∧
    Field_is_set 8 3 1 (7 <<< 1) = true ∧
    Field_is_clear 8 3 1 0 = true := by
  refine ⟨?_, ?_, ?_⟩
  · cases hb : Field_is_set 8 3 1 (6 <<< 1)
    · rfl
    · exact absurd ((claim_C7_is_set_is_clear 8 3 1 (6 <<< 1) (by decide)).1.mp hb)
        (by decide)
  · exact (claim_C7_is_set_is_clear 8 3 1 (7 <<< 1) (by decide)).1.mpr (by decide)
  · exact (claim_C7_is_set_is_clear 8 3 1 0 (by decide)).2.mpr (by decide)

/-- Claim C1: for a read-write field of width `w` at offset `o` in an `N`-bit
register without shadow value, and any value `v < 2 ^ w`, writing `v` and
then reading yields exactly `v`, and every bit of the register outside the
field's mask is unchanged by the write. -/
theorem claim_C1_write_read_roundtrip (N w o v : Nat) (reg : MmioDevice)
    (h : w + o ≤ N) (hv : v < 2 ^ w) (hreg : reg.val < 2 ^ N) :
    Field_read N w o (Field_write N w o reg v).val = v ∧
    ∀ i, (Field_mask N w o).testBit i = false →
      (Field_write N w o reg v).val.testBit i = reg.val.testBit i := by
  have hvN : v < 2 ^ N :=
    lt_of_lt_of_le hv (Nat.pow_le_pow_right (by norm_num) (by omega))
  have hW : (Field_write N w o reg v).val =
      RegisterWrite_write N (Field_mask N w o) o reg.val v := rfl
  constructor
  · rw [Field_read, hW,
      RegisterRead_read_eq (RegisterWrite_write_lt (Field_mask_lt N w o) hvN),
      RegisterWrite_write_eq hvN]
    exact field_roundtrip_core h hv
  · intro i hi
    rw [hW]
    exact RegisterWrite_write_testBit_outside hreg hvN hi

/-- Witness for C1: writing 5 into a 3-bit field at offset 2 of an 8-bit
register holding 0xA5 reads back 5, and bit 0 (outside the field) is
unchanged. -/
theorem claim_C1_write_read_roundtrip_witness :
    Field_read 8 3 2 (Field_write 8 3 2 ⟨0xA5, 0⟩ 5).val = 5 ∧
    (Field_write 8 3 2 ⟨0xA5, 0⟩ 5).val.testBit 0 = (0xA5 : Nat).testBit 0 :=
  ⟨(claim_C1_write_read_roundtrip 8 3 2 5 ⟨0xA5, 0⟩ (by decide) (by decide)
      (by decide)).1,
   (claim_C1_write_read_roundtrip 8 3 2 5 ⟨0xA5, 0⟩ (by decide) (by decide)
      (by decide)).2 0 (by decide)⟩

/-- Claim C6: the compile-time write guard `check_overflow` accepts a value for a
field of width `w` at offset `o` exactly when `value <= mask >> offset`,
which is exactly `value <= 2 ^ w - 1`; an accepted `write<value>()` (the
`RegisterWriteConstant` path) puts the value into the field's bit
positions. -/
theorem claim_C6_constant_write_guard (N w o v : Nat) (d : MmioDevice)
    (h : w + o ≤ N) :
    (check_overflow v (Field_mask N w o >>> o) = true ↔ v ≤ 2 ^ w - 1) ∧
    (v ≤ 2 ^ w - 1 →
      Field_read N w o (Field_write_constant N w o d v).val = v) := by
  constructor
  · rw [Field_mask_shiftRight h, check_overflow]
    simp
  · intro hv
    have hpos : 0 < 2 ^ w := Nat.pos_pow_of_pos _ (by norm_num)
    have hvw : v < 2 ^ w := by omega
    have hvN : v < 2 ^ N :=
      lt_of_lt_of_le hvw (Nat.pow_le_pow_right (by norm_num) (by omega))
    have hW : (Field_write_constant N w o d v).val =
        RegisterWriteConstant_write N (Field_mask N w o) o d.val v := rfl
    rw [Field_read, hW, RegisterWriteConstant_write_eq hvN]
    have hlt : RegisterWrite_write_nontrivial N (Field_mask N w o) o d.val v
        < 2 ^ N := by
      rw [RegisterWrite_write_nontrivial]
      apply Nat.or_lt_two_pow
      · exact lt_of_le_of_lt Nat.and_le_right
          (Nat.xor_lt_two_pow (type_mask_lt N) (Field_mask_lt N w o))
      · exact lt_of_le_of_lt Nat.and_le_right (Field_mask_lt N w o)
    rw [RegisterRead_read_eq hlt]
    exact field_roundtrip_core h hvw

/-- Witness for C6: for a 4-bit field at offset 0 of an 8-bit register,
value 16 is rejected by the overflow guard, value 15 is accepted, and the
accepted compile-time write of 15 reads back 0b1111. -/
theorem claim_C6_constant_write_guard_witness :
    check_overflow 16 (Field_mask 8 4 0 >>> 0) = false ∧
    check_overflow 15 (Field_mask 8 4 0 >>> 0) = true ∧
    Field_read 8 4 0 (Field_write_constant 8 4 0 ⟨0xA5, 0⟩ 15).val = 15 := by
  refine ⟨?_, ?_, ?_⟩
  · have h := (claim_C6_constant_write_guard 8 4 0 16 ⟨0xA5, 0⟩ (by decide)).1
    have h2 : ¬ (16 : Nat) ≤ 2 ^ 4 - 1 := by decide
    simp only [← h] at h2
    revert h2
    cases check_overflow 16 (Field_mask 8 4 0 >>> 0) <;> simp
  · exact (claim_C6_constant_write_guard 8 4 0 15 ⟨0xA5, 0⟩ (by decide)).1.mpr
      (by decide)
  · exact (claim_C6_constant_write_guard 8 4 0 15 ⟨0xA5, 0⟩ (by decide)).2
      (by decide)

/-- Claim C4: a write-only field write (no shadow) stores
`(value << offset) & mask` as the entire register content: the field's bit
positions receive the low `w` bits of the value and every bit outside the
field becomes 0, whatever the register held before. -/
theorem claim_C4_write_only_clobbers (N w o v : Nat) (d : MmioDevice)
    (h : w + o ≤ N) :
    (Field_write_wo N w o d v).val = (v <<< o) &&& Field_mask N w o ∧
    Field_read N w o (Field_write_wo N w o d v).val = v % 2 ^ w ∧
    ∀ i, (Field_mask N w o).testBit i = false →
      (Field_write_wo N w o d v).val.testBit i = false := by
  have hval : (Field_write_wo N w o d v).val =
      (v <<< o) &&& Field_mask N w o := by
    show RegisterWrite_write N (type_mask N) 0 d.val
      ((v <<< o) &&& Field_mask N w o) = _
    simp [RegisterWrite_write, is_trivial_rw, RegisterWrite_write_trivial]
  refine ⟨hval, ?_, ?_⟩
  · rw [Field_read, hval]
    have hlt : (v <<< o) &&& Field_mask N w o < 2 ^ N :=
      lt_of_le_of_lt Nat.and_le_right (Field_mask_lt N w o)
    rw [RegisterRead_read_eq hlt, RegisterRead_read_nontrivial]
    apply Nat.eq_of_testBit_eq
    intro i
    simp only [Nat.testBit_shiftRight, Nat.testBit_and, Nat.testBit_shiftLeft,
      testBit_Field_mask h, Nat.testBit_mod_two_pow, ge_iff_le]
    by_cases hi : i < w
    · have h1 : o ≤ o + i := Nat.le_add_right o i
      have h2 : o + i < o + w := by omega
      simp [h1, h2, hi, Nat.add_sub_cancel_left]
    · have h2 : ¬ (o + i < o + w) := by omega
      simp [h2, hi]
  · intro i hi
    rw [hval]
    simp [Nat.testBit_and, hi]

/-- Witness for C4: an 8-bit register holding 0xFF, write-only 4-bit field
at offset 2: writing 0xF3 stores 0xCC (field gets low bits 0b0011 shifted,
everything else zeroed). -/
theorem claim_C4_write_only_clobbers_witness :
    (Field_write_wo 8 4 2 ⟨0xFF, 0⟩ 0xF3).val =
      (0xF3 <<< 2) &&& Field_mask 8 4 2 ∧
    Field_read 8 4 2 (Field_write_wo 8 4 2 ⟨0xFF, 0⟩ 0xF3).val = 0xF3 % 2 ^ 4 ∧
    (Field_write_wo 8 4 2 ⟨0xFF, 0⟩ 0xF3).val.testBit 0 = false :=
  ⟨(claim_C4_write_only_clobbers 8 4 2 0xF3 ⟨0xFF, 0⟩ (by decide)).1,
   (claim_C4_write_only_clobbers 8 4 2 0xF3 ⟨0xFF, 0⟩ (by decide)).2.1,
   (claim_C4_write_only_clobbers 8 4 2 0xF3 ⟨0xFF, 0⟩ (by decide)).2.2 0
     (by decide)⟩

/-- Claim C2: a merge-write chain `merge_write<A>(a).with<B>(b).done()` on a
non-shadow register performs exactly one store, and the final register
value is `(original & ~combined_mask) | (accumulated_value & combined_mask)`;
in particular, for fields A (width 4, offset 0) and B (width 4, offset 4)
of an 8-bit register with values 3 and 5, the final value is
`(original & ~0xFF) | 0x53 = 0x53`. -/
theorem claim_C2_merge_write_single_store (N wA oA a wB oB b : Nat)
    (d : MmioDevice) :
    (MergeWrite_done N
        (MergeWrite_with N wB oB (Register_merge_write N wA oA a) b) d).stores
      = d.stores + 1 ∧
    (MergeWrite_done N
        (MergeWrite_with N wB oB (Register_merge_write N wA oA a) b) d).val
      = (d.val &&& (type_mask N ^^^
          (MergeWrite_with N wB oB (Register_merge_write N wA oA a) b).combined_mask)) |||
        ((MergeWrite_with N wB oB (Register_merge_write N wA oA a) b).accumulated_value &&&
          (MergeWrite_with N wB oB (Register_merge_write N wA oA a) b).combined_mask) ∧
    (N = 8 → wA = 4 → oA = 0 → a = 3 → wB = 4 → oB = 4 → b = 5 →
      (MergeWrite_done N
          (MergeWrite_with N wB oB (Register_merge_write N wA oA a) b) d).val
        = 0x53) := by
  have hacc : (MergeWrite_with N wB oB (Register_merge_write N wA oA a) b).accumulated_value
      < 2 ^ N := by
    apply Nat.or_lt_two_pow
    · exact lt_of_le_of_lt Nat.and_le_right
        (Nat.xor_lt_two_pow (type_mask_lt N) (Field_mask_lt N wB oB))
    · exact lt_of_le_of_lt Nat.and_le_right (Field_mask_lt N wB oB)
  have hval : (MergeWrite_done N
      (MergeWrite_with N wB oB (Register_merge_write N wA oA a) b) d).val
      = (d.val &&& (type_mask N ^^^
          (MergeWrite_with N wB oB (Register_merge_write N wA oA a) b).combined_mask)) |||
        ((MergeWrite_with N wB oB (Register_merge_write N wA oA a) b).accumulated_value &&&
          (MergeWrite_with N wB oB (Register_merge_write N wA oA a) b).combined_mask) := by
    show RegisterWrite_write N _ 0 d.val _ = _
    rw [RegisterWrite_write_eq hacc, RegisterWrite_write_nontrivial,
      Nat.shiftLeft_zero, Nat.mod_eq_of_lt hacc]
  refine ⟨rfl, hval, ?_⟩
  intro h1 h2 h3 h4 h5 h6 h7
  subst h1 h2 h3 h4 h5 h6 h7
  rw [hval]
  have hc : (MergeWrite_with 8 4 4 (Register_merge_write 8 4 0 3) 5).combined_mask
      = type_mask 8 := by decide
  have ha : (MergeWrite_with 8 4 4 (Register_merge_write 8 4 0 3) 5).accumulated_value
      = 0x53 := by decide
  rw [hc, ha, Nat.xor_self, Nat.and_zero, Nat.zero_or]
  decide

/-- Witness for C2: committing `merge_write<A>(3).with<B>(5)` onto an 8-bit
register holding 0xAB performs one store and leaves 0x53. -/
theorem claim_C2_merge_write_single_store_witness :
    (MergeWrite_done 8 (MergeWrite_with 8 4 4 (Register_merge_write 8 4 0 3) 5)
        ⟨0xAB, 0⟩).stores = 1 ∧
    (MergeWrite_done 8 (MergeWrite_with 8 4 4 (Register_merge_write 8 4 0 3) 5)
        ⟨0xAB, 0⟩).val = 0x53 :=
  ⟨(claim_C2_merge_write_single_store 8 4 0 3 4 4 5 ⟨0xAB, 0⟩).1,
   (claim_C2_merge_write_single_store 8 4 0 3 4 4 5 ⟨0xAB, 0⟩).2.2
     rfl rfl rfl rfl rfl rfl rfl⟩

theorem RegisterWrite_write_full (N mmio value : Nat) :
    RegisterWrite_write N (type_mask N) 0 mmio value = value := by
  simp [RegisterWrite_write, is_trivial_rw, RegisterWrite_write_trivial]

theorem Field_write_shadow_shadow_eq (p : AccessPolicyKind) (N w o : Nat)
    (s : ShadowRegState) (v : Nat) (hv : v < 2 ^ N) :
    (Field_write_shadow p N w o s v).shadow_value =
      masked_update N w o s.shadow_value v := by
  show RegisterWrite_write N (Field_mask N w o) o s.shadow_value v = _
  rw [RegisterWrite_write_eq hv]
  rfl

theorem Field_write_shadow_dev (p : AccessPolicyKind) (N w o : Nat)
    (s : ShadowRegState) (v : Nat) (hv : v < 2 ^ N) :
    (Field_write_shadow p N w o s v).dev.val =
      (Field_write_shadow p N w o s v).shadow_value ∧
    (Field_write_shadow p N w o s v).dev.stores = s.dev.stores + 1 := by
  have hsh : RegisterWrite_write N (Field_mask N w o) o s.shadow_value v
      < 2 ^ N := RegisterWrite_write_lt (Field_mask_lt N w o) hv
  cases p
  · constructor
    · show RegisterWrite_write N (type_mask N) 0 s.dev.val _ = _
      rw [RegisterWrite_write_full]
      rfl
    · rfl
  · constructor
    · show RegisterWrite_write N (type_mask N) 0 s.dev.val
        ((RegisterWrite_write N (Field_mask N w o) o s.shadow_value v <<< 0)
          &&& type_mask N) = _
      rw [RegisterWrite_write_full, Nat.shiftLeft_zero, and_type_mask_of_lt hsh]
      rfl
    · rfl

theorem shadow_seq_shadow_value (p : AccessPolicyKind) (N : Nat)
    (ws : List (Nat × Nat × Nat)) :
    ∀ s : ShadowRegState, (∀ wov ∈ ws, wov.2.2 < 2 ^ N) →
      (Field_write_shadow_seq p N s ws).shadow_value =
        ws.foldl (fun x wov => masked_update N wov.1 wov.2.1 x wov.2.2)
          s.shadow_value := by
  induction ws with
  | nil => intro s _; rfl
  | cons wov rest ih =>
    intro s hb
    have h1 : wov.2.2 < 2 ^ N := hb wov (List.mem_cons_self _ _)
    show (Field_write_shadow_seq p N
        (Field_write_shadow p N wov.1 wov.2.1 s wov.2.2) rest).shadow_value = _
    rw [ih _ (fun x hx => hb x (List.mem_cons_of_mem _ hx)), List.foldl_cons,
      Field_write_shadow_shadow_eq p N wov.1 wov.2.1 s wov.2.2 h1]

theorem shadow_seq_dev (p : AccessPolicyKind) (N : Nat)
    (ws : List (Nat × Nat × Nat)) :
    ∀ s : ShadowRegState, (∀ wov ∈ ws, wov.2.2 < 2 ^ N) → ws ≠ [] →
      (Field_write_shadow_seq p N s ws).dev.val =
        (Field_write_shadow_seq p N s ws).shadow_value := by
  induction ws with
  | nil => intro s _ hne; exact absurd rfl hne
  | cons wov rest ih =>
    intro s hb _
    rcases rest with _ | ⟨w2, r2⟩
    · exact (Field_write_shadow_dev p N wov.1 wov.2.1 s wov.2.2
        (hb wov (List.mem_cons_self _ _))).1
    · exact ih _ (fun x hx => hb x (List.mem_cons_of_mem _ hx)) (by simp)

/-- Claim C3: each field write on a shadow-enabled register first updates the
shadow value to `(shadow & ~mask) | ((v << offset) & mask)` and then stores
the entire updated shadow value to hardware with a full-width zero-offset
write, so after any sequence of field writes starting from the reset value
the shadow value is the fold of those masked updates over the reset value,
and the value sent to hardware by the last write is the full shadow
value. -/
theorem claim_C3_shadow_write (p : AccessPolicyKind) (N : Nat) :
    (∀ w o (s : ShadowRegState) v, v < 2 ^ N →
      (Field_write_shadow p N w o s v).shadow_value =
          masked_update N w o s.shadow_value v ∧
        (Field_write_shadow p N w o s v).dev.val =
          (Field_write_shadow p N w o s v).shadow_value ∧
        (Field_write_shadow p N w o s v).dev.stores = s.dev.stores + 1) ∧
    (∀ (reset : Nat) (d0 : MmioDevice) (ws : List (Nat × Nat × Nat)),
      (∀ wov ∈ ws, wov.2.2 < 2 ^ N) →
      (Field_write_shadow_seq p N ⟨reset, d0⟩ ws).shadow_value =
          ws.foldl (fun x wov => masked_update N wov.1 wov.2.1 x wov.2.2)
            reset ∧
        (ws ≠ [] →
          (Field_write_shadow_seq p N ⟨reset, d0⟩ ws).dev.val =
            (Field_write_shadow_seq p N ⟨reset, d0⟩ ws).shadow_value)) := by
  constructor
  · intro w o s v hv
    exact ⟨Field_write_shadow_shadow_eq p N w o s v hv,
      (Field_write_shadow_dev p N w o s v hv).1,
      (Field_write_shadow_dev p N w o s v hv).2⟩
  · intro reset d0 ws hb
    exact ⟨shadow_seq_shadow_value p N ws ⟨reset, d0⟩ hb,
      shadow_seq_dev p N ws ⟨reset, d0⟩ hb⟩

/-- Witness for C3: on an 8-bit shadow register with reset value 0 and a
write-only hardware location, writing 5 to a 3-bit field at offset 2 and
then 3 to a 2-bit field at offset 0 leaves shadow value 0x17, which is also
the value the last hardware store pushed out. -/
theorem claim_C3_shadow_write_witness :
    (Field_write_shadow_seq .write_only 8 ⟨0, ⟨0, 0⟩⟩
        [(3, 2, 5), (2, 0, 3)]).shadow_value =
      [(3, 2, 5), (2, 0, 3)].foldl
        (fun x wov => masked_update 8 wov.1 wov.2.1 x wov.2.2) 0 ∧
    (Field_write_shadow_seq .write_only 8 ⟨0, ⟨0, 0⟩⟩
        [(3, 2, 5), (2, 0, 3)]).dev.val =
      (Field_write_shadow_seq .write_only 8 ⟨0, ⟨0, 0⟩⟩
        [(3, 2, 5), (2, 0, 3)]).shadow_value ∧
    (Field_write_shadow .write_only 8 3 2 ⟨0, ⟨0, 0⟩⟩ 5).shadow_value =
      masked_update 8 3 2 0 5 :=
  ⟨((claim_C3_shadow_write .write_only 8).2 0 ⟨0, 0⟩ [(3, 2, 5), (2, 0, 3)]
      (by decide)).1,
   ((claim_C3_shadow_write .write_only 8).2 0 ⟨0, 0⟩ [(3, 2, 5), (2, 0, 3)]
      (by decide)).2 (by simp),
   ((claim_C3_shadow_write .write_only 8).1 3 2 ⟨0, ⟨0, 0⟩⟩ 5 (by decide)).1⟩

theorem for_loop_indices_eq_range' :
    ∀ (n s : Nat), for_loop_indices s (s + n) = List.range' s n
  | 0, s => by
    rw [for_loop_indices]
    simp
  | n + 1, s => by
    rw [for_loop_indices]
    have h1 : ¬ s = s + (n + 1) := by omega
    have h2 : s < s + (n + 1) := by omega
    have h3 : s + (n + 1) = (s + 1) + n := by omega
    simp only [h1, if_false, h2, dif_pos]
    rw [h3, for_loop_indices_eq_range' n (s + 1), List.range'_succ]

theorem pack_loop_indices_eq_range (n : Nat) :
    pack_loop_indices n = List.range n := by
  rw [pack_loop_indices, List.range_eq_range']
  have := for_loop_indices_eq_range' n 0
  rwa [Nat.zero_add] at this

/-- Claim C9: the compile-time loop `pack_loop = for_loop<0, n>` invokes the
functor exactly once for each index in `[0, n)`, in ascending index order;
in particular for a pack of 4 registers the loop over `[0, 4)` visits
indices 0, 1, 2, 3 in that order. -/
theorem claim_C9_for_loop_visits_each_once (n : Nat) :
    (∀ i, (pack_loop_indices n).count i = if i < n then 1 else 0) ∧
    List.Pairwise (· < ·) (pack_loop_indices n) ∧
    pack_loop_indices 4 = [0, 1, 2, 3] := by
  refine ⟨?_, ?_, ?_⟩
  · intro i
    rw [pack_loop_indices_eq_range]
    by_cases hi : i < n
    · simp only [hi, if_true]
      exact List.count_eq_one_of_mem (List.nodup_range n)
        (List.mem_range.mpr hi)
    · simp only [hi, if_false]
      exact List.count_eq_zero.mpr (fun hmem => hi (List.mem_range.mp hmem))
  · rw [pack_loop_indices_eq_range]
    exact List.pairwise_lt_range n
  · rw [pack_loop_indices_eq_range]
    decide

theorem accumulated_lt_create (N w o v : Nat) :
    (Register_merge_write N w o v).accumulated_value < 2 ^ N :=
  lt_of_le_of_lt Nat.and_le_right (Field_mask_lt N w o)

theorem accumulated_lt_with (N w o v : Nat) (m : MergeWrite) :
    (MergeWrite_with N w o m v).accumulated_value < 2 ^ N := by
  apply Nat.or_lt_two_pow
  · exact lt_of_le_of_lt Nat.and_le_right
      (Nat.xor_lt_two_pow (type_mask_lt N) (Field_mask_lt N w o))
  · exact lt_of_le_of_lt Nat.and_le_right (Field_mask_lt N w o)

/-- Claim C10: merge-write accumulators keep the accumulated value inside the
combined mask.  For `MergeWrite`: the accumulator created by
`Register::merge_write<F>(v)` satisfies
`accumulated_value & ~combined_mask = 0`, every `with` step preserves the
invariant (and keeps the value below `2 ^ N`), and under the invariant the
store performed by `done()` never turns on a bit outside the combined
mask.  The same holds for the compile-time `MergeWrite_tmpl` chain. -/
theorem claim_C10_merge_accumulator_in_mask :
    (∀ N w o v, merge_inv N (Register_merge_write N w o v) ∧
      (Register_merge_write N w o v).accumulated_value < 2 ^ N) ∧
    (∀ N w o v m, merge_inv N m →
      merge_inv N (MergeWrite_with N w o m v) ∧
      (MergeWrite_with N w o m v).accumulated_value < 2 ^ N) ∧
    (∀ N (m : MergeWrite) (d : MmioDevice) i, merge_inv N m →
      m.accumulated_value < 2 ^ N →
      m.combined_mask.testBit i = false →
      (MergeWrite_done N m d).val.testBit i = true →
      d.val.testBit i = true) ∧
    (∀ N w o v, merge_tmpl_inv N (Register_merge_write_tmpl N w o v)) ∧
    (∀ N w o nv m, m.mask < 2 ^ N →
      merge_tmpl_inv N (MergeWriteTmpl_with N w o m nv)) ∧
    (∀ N (m : MergeWriteTmpl) (d : MmioDevice) i, merge_tmpl_inv N m →
      (MergeWriteTmpl_combined_mask m).testBit i = false →
      (MergeWriteTmpl_done N m d).val.testBit i = true →
      d.val.testBit i = true) := by
  refine ⟨?_, ?_, ?_, ?_, ?_, ?_⟩
  · intro N w o v
    exact ⟨and_not_self_mask N (Field_mask_lt N w o) _,
      accumulated_lt_create N w o v⟩
  · intro N w o v m hm
    refine ⟨?_, accumulated_lt_with N w o v m⟩
    apply Nat.eq_of_testBit_eq
    intro i
    have hb := congrArg (fun x => x.testBit i) hm
    simp only [Nat.testBit_and, Nat.testBit_xor, testBit_type_mask,
      Nat.zero_testBit] at hb
    simp only [MergeWrite_with, Nat.testBit_and, Nat.testBit_or,
      Nat.testBit_xor, testBit_type_mask, Nat.testBit_mod_two_pow,
      Nat.zero_testBit]
    by_cases hiN : i < N
    · cases hF : (Field_mask N w o).testBit i <;>
        cases hA : m.accumulated_value.testBit i <;>
        cases hC : m.combined_mask.testBit i <;>
        simp_all [hiN]
    · have hF : (Field_mask N w o).testBit i = false :=
        testBit_false_of_ge (Field_mask_lt N w o) (by omega)
      simp [hiN, hF]
  · intro N m d i hm hacc hcm hbit
    have hval : (MergeWrite_done N m d).val =
        (d.val &&& (type_mask N ^^^ m.combined_mask)) |||
          (m.accumulated_value &&& m.combined_mask) := by
      show RegisterWrite_write N m.combined_mask 0 d.val m.accumulated_value = _
      rw [RegisterWrite_write_eq hacc, RegisterWrite_write_nontrivial,
        Nat.shiftLeft_zero, Nat.mod_eq_of_lt hacc]
    rw [hval] at hbit
    simp only [Nat.testBit_or, Nat.testBit_and, Nat.testBit_xor,
      testBit_type_mask, hcm, Bool.and_false, Bool.or_false] at hbit
    exact (Bool.and_eq_true _ _ ▸ hbit).1
  · intro N w o v
    exact and_not_self_mask N (Field_mask_lt N w o) _
  · intro N w o nv m hmm
    have h2 : MergeWriteTmpl_combined_mask m ||| Field_mask N w o < 2 ^ N :=
      Nat.or_lt_two_pow hmm (Field_mask_lt N w o)
    exact and_not_self_mask N h2 _
  · intro N m d i hm hcm hbit
    have hacc : MergeWriteTmpl_accumulated_value N m < 2 ^ N :=
      lt_of_le_of_lt Nat.and_le_left
        (Nat.mod_lt _ (Nat.pos_pow_of_pos _ (by norm_num)))
    have hval : (MergeWriteTmpl_done N m d).val =
        (d.val &&& (type_mask N ^^^ MergeWriteTmpl_combined_mask m)) |||
          (MergeWriteTmpl_accumulated_value N m &&&
            MergeWriteTmpl_combined_mask m) := by
      show RegisterWriteConstant_write N (MergeWriteTmpl_combined_mask m) 0
        d.val (MergeWriteTmpl_accumulated_value N m) = _
      rw [RegisterWriteConstant_write_eq hacc, RegisterWrite_write_nontrivial,
        Nat.shiftLeft_zero, Nat.mod_eq_of_lt hacc]
    rw [hval] at hbit
    simp only [Nat.testBit_or, Nat.testBit_and, Nat.testBit_xor,
      testBit_type_mask, hcm, Bool.and_false, Bool.or_false] at hbit
    exact (Bool.and_eq_true _ _ ▸ hbit).1

/-- Witness for C10 on the concrete 8-bit chain seeded with field A
(width 4, offset 0) value 3 then field B (width 4, offset 4) value 5, for
both the runtime and the compile-time accumulators. -/
theorem claim_C10_merge_accumulator_in_mask_witness :
    merge_inv 8 (Register_merge_write 8 4 0 3) ∧
    merge_inv 8 (MergeWrite_with 8 4 4 (Register_merge_write 8 4 0 3) 5) ∧
    merge_tmpl_inv 8 (Register_merge_write_tmpl 8 4 0 3) ∧
    merge_tmpl_inv 8
      (MergeWriteTmpl_with 8 4 4 (Register_merge_write_tmpl 8 4 0 3) 5) :=
  ⟨(claim_C10_merge_accumulator_in_mask.1 8 4 0 3).1,
   (claim_C10_merge_accumulator_in_mask.2.1 8 4 4 5 _
     (claim_C10_merge_accumulator_in_mask.1 8 4 0 3).1).1,
   claim_C10_merge_accumulator_in_mask.2.2.2.1 8 4 0 3,
   claim_C10_merge_accumulator_in_mask.2.2.2.2.1 8 4 4 5 _ (by decide)⟩

end Cppreg
